import Mathlib

/-!
Verification development for the x-ten hover extension (`src/x-ten.js`).

The source resolves a variable identifier at the editor cursor, extracts the
literal value assigned to it by lightweight regex scanning, cross-references
the value against a JSON metadata table (cached with a 5000 ms freshness
window), and renders a screenshot payload.

Strings are modelled as `List Char`.  The JavaScript regular expressions used
by the source are compiled by hand into deterministic scanners: every pattern
in the source alternates literal runs with the character classes `\s`, `[^q]`,
`[a-zA-Z_]`, `[a-zA-Z0-9_$]`, `.` and the anchor `$`, and in each pattern the
character following a greedy star is never a member of the starred class, so
greedy matching without backtracking computes exactly the regex-engine result
(each such justification is noted at the definition it concerns).
-/

/-- The characters matched by JavaScript `\s` (per ECMA-262 `WhiteSpace` and
`LineTerminator`, which is also the set trimmed by `String.prototype.trim`). -/
def isWs (c : Char) : Bool :=
  decide (c = ' ') || decide (c = Char.ofNat 9) || decide (c = Char.ofNat 10) ||
  decide (c = Char.ofNat 11) || decide (c = Char.ofNat 12) || decide (c = Char.ofNat 13) ||
  decide (c = Char.ofNat 0xa0) || decide (c = Char.ofNat 0x1680) ||
  (decide (Char.ofNat 0x2000 ≤ c) && decide (c ≤ Char.ofNat 0x200a)) ||
  decide (c = Char.ofNat 0x2028) || decide (c = Char.ofNat 0x2029) ||
  decide (c = Char.ofNat 0x202f) || decide (c = Char.ofNat 0x205f) ||
  decide (c = Char.ofNat 0x3000) || decide (c = Char.ofNat 0xfeff)

/-- `.` in a JavaScript regex matches everything except a `LineTerminator`. -/
def notLineTerm (c : Char) : Bool :=
  !(decide (c = Char.ofNat 10) || decide (c = Char.ofNat 13) ||
    decide (c = Char.ofNat 0x2028) || decide (c = Char.ofNat 0x2029))

/-- The class `[a-zA-Z_]` (first character of a Robot Framework variable name). -/
def isAlphaUnd (c : Char) : Bool :=
  (decide ('a' ≤ c) && decide (c ≤ 'z')) || (decide ('A' ≤ c) && decide (c ≤ 'Z')) ||
  decide (c = '_')

/-- The class `[a-zA-Z0-9_]` (later characters of a Robot Framework variable name). -/
def isAlnumUnd (c : Char) : Bool :=
  isAlphaUnd c || (decide ('0' ≤ c) && decide (c ≤ '9'))

/-- The class `[a-zA-Z_$]` (first character of a Python/JS/TS identifier). -/
def isIdStart (c : Char) : Bool :=
  isAlphaUnd c || decide (c = '$')

/-- The class `[a-zA-Z0-9_$]` (later characters of a Python/JS/TS identifier). -/
def isIdChar (c : Char) : Bool :=
  isAlnumUnd c || decide (c = '$')

/-- Double quote. -/
def dquote : Char := Char.ofNat 34
/-- Single quote. -/
def squote : Char := Char.ofNat 39
/-- Back quote. -/
def bquote : Char := Char.ofNat 96
/-- Opening curly brace. -/
def lbrace : Char := Char.ofNat 123
/-- Closing curly brace. -/
def rbrace : Char := Char.ofNat 125

/-- View a Lean string literal as the `List Char` the model works on. -/
def lchars (s : String) : List Char := s.data

/-- The word-validity test of `getVariableAtPosition`
(`/^[a-zA-Z_$][a-zA-Z0-9_$]*$/.test(word)`). -/
def validVariableName (w : List Char) : Bool :=
  match w with
  | [] => false
  | c :: rest => isIdStart c && rest.all isIdChar

/-!
## The quoted-literal value extractor (`extractVariableValue`)

`extractVariableValue` interpolates the identifier verbatim into
`` `${variableName}\s*=\s*"([^"]*)"` `` (and the single and back quote variants).
For identifiers drawn from `[a-zA-Z_$][a-zA-Z0-9_$]*` the only regex
metacharacter that can occur in the interpolated text is `$`, which the engine
reads as an end-of-input anchor; every other character is a literal.
-/

/-- One compiled token of the interpolated identifier: a literal character, or
the end-of-input anchor that a `$` inside the identifier becomes. -/
inductive NameTok where
  | lit : Char → NameTok
  | endAnchor : NameTok
deriving DecidableEq

/-- Compile an interpolated identifier to its token list: `$` becomes the
end-of-input anchor, everything else is a literal. -/
def nameToks (name : List Char) : List NameTok :=
  name.map (fun c => if c = '$' then NameTok.endAnchor else NameTok.lit c)

/-- Match a token list at the head of `s`, returning the rest of the input.
The anchor consumes nothing and succeeds only at end of input. -/
def matchToks : List NameTok → List Char → Option (List Char)
  | [], s => some s
  | NameTok.lit c :: ts, d :: s => if d = c then matchToks ts s else none
  | NameTok.lit _ :: _, [] => none
  | NameTok.endAnchor :: ts, [] => matchToks ts []
  | NameTok.endAnchor :: _, _ :: _ => none

/-- Match `\s*=\s*q([^q]*)q` against `s` and return the capture.
Greedy `\s*` needs no backtracking because neither `=` nor a quote is in `\s`,
and greedy `[^q]*` needs none because the character after it must be `q`. -/
def quotedTail (q : Char) (s : List Char) : Option (List Char) :=
  match s.dropWhile isWs with
  | c :: r1 =>
    if c = '=' then
      match r1.dropWhile isWs with
      | d :: r2 =>
        if d = q then
          if (r2.dropWhile (fun e => !decide (e = q))).isEmpty then none
          else some (r2.takeWhile (fun e => !decide (e = q)))
        else none
      | [] => none
    else none
  | [] => none

/-- Match the whole pattern `name\s*=\s*q([^q]*)q` at the head of `s`. -/
def quotePatternAt (toks : List NameTok) (q : Char) (s : List Char) : Option (List Char) :=
  match matchToks toks s with
  | some r => quotedTail q r
  | none => none

/-- `line.match(regex)`: the capture of the leftmost match of
`name\s*=\s*q([^q]*)q` in `s` (every start position is tried, in order,
including the end-of-input position). -/
def quotePatternSearch (toks : List NameTok) (q : Char) (s : List Char) : Option (List Char) :=
  match quotePatternAt toks q s with
  | some cap => some cap
  | none =>
    match s with
    | [] => none
    | _ :: rest => quotePatternSearch toks q rest

/-- The JavaScript truthiness test `match && match[1]`: keep the captured
group only when it is a non-empty string. -/
def capturedOrNone : Option (List Char) → Option (List Char)
  | some v => if v.isEmpty then none else some v
  | none => none

/-- `extractVariableValue(line, variableName)` (lines 106–122 and 374–393):
try the double-quoted, single-quoted and back-quoted assignment patterns in
that order and return the first non-empty capture. -/
def extractVariableValue (line name : List Char) : Option (List Char) :=
  match capturedOrNone (quotePatternSearch (nameToks name) dquote line) with
  | some v => some v
  | none =>
    match capturedOrNone (quotePatternSearch (nameToks name) squote line) with
    | some v => some v
    | none => capturedOrNone (quotePatternSearch (nameToks name) bquote line)

/-!
## The Robot Framework value extractor (`extractRobotVariableValue`)

The pattern is `` `\$\{${variableName}\}\s+(.+?)$` `` where the interpolated
Robot name matches `[a-zA-Z_][a-zA-Z0-9_]*`, so it is all literals.
-/

/-- The literal part `\$\{name\}` of the Robot assignment pattern. -/
def robotLiteral (name : List Char) : List Char :=
  '$' :: lbrace :: (name ++ [rbrace])

/-- Match a literal character sequence at the head of `s`. -/
def dropLiteral : List Char → List Char → Option (List Char)
  | [], s => some s
  | _ :: _, [] => none
  | c :: cs, d :: s => if d = c then dropLiteral cs s else none

/-- Match `\s+(.+?)$` against `r` and return the capture.  The engine takes
`\s+` greedily; the lazy `(.+?)` must then reach the end-of-input anchor, so
it captures the whole remainder provided it is non-empty and free of line
terminators.  When the remainder is empty the engine gives back one
whitespace character to `.` (possible only when the run has length ≥ 2 and
that character is not a line terminator); since every line terminator is
whitespace, no shorter `\s+` can ever get `(.+?)` past a terminator. -/
def robotValueTail (r : List Char) : Option (List Char) :=
  let ws := r.takeWhile isWs
  let rest := r.dropWhile isWs
  if ws.isEmpty then none
  else if rest.isEmpty then
    if 2 ≤ ws.length then
      match r.getLast? with
      | some c => if notLineTerm c then some [c] else none
      | none => none
    else none
  else if rest.all notLineTerm then some rest else none

/-- The leftmost match of `\$\{name\}\s+(.+?)$` in `s` (capture, untrimmed). -/
def robotPatternSearch (lit : List Char) (s : List Char) : Option (List Char) :=
  match (dropLiteral lit s).bind robotValueTail with
  | some cap => some cap
  | none =>
    match s with
    | [] => none
    | _ :: rest => robotPatternSearch lit rest

/-- `String.prototype.trim`. -/
def trimChars (l : List Char) : List Char :=
  ((l.dropWhile isWs).reverse.dropWhile isWs).reverse

/-- `extractRobotVariableValue(line, variableName)` (lines 126–135): match the
Robot assignment pattern and return `match[1].trim()` (the capture of a
successful match is never empty, so `match && match[1]` is just success). -/
def extractRobotVariableValue (line name : List Char) : Option (List Char) :=
  (robotPatternSearch (robotLiteral name) line).map trimChars

/-!
## Identifier scanning

`getVariableAtPosition` (lines 69–103) and the per-line global scans of
`buildVariableAssignmentCache` (lines 152–184).
-/

/-- Match `\$\{([a-zA-Z_][a-zA-Z0-9_]*)\}` at the head of `s`, returning the
capture.  Greedy `[a-zA-Z0-9_]*` needs no backtracking because `}` is not in
the class. -/
def robotNameAt (s : List Char) : Option (List Char) :=
  match s with
  | a :: b :: c :: rest =>
    if a = '$' ∧ b = lbrace ∧ isAlphaUnd c = true then
      match rest.dropWhile isAlnumUnd with
      | d :: _ => if d = rbrace then some (c :: rest.takeWhile isAlnumUnd) else none
      | [] => none
    else none
  | _ => none

/-- The `exec` loop over `/\$\{([a-zA-Z_][a-zA-Z0-9_]*)\}/g`: each iteration
finds the leftmost match at or after `lastIndex` and resumes after it.
Entries are `(start, start + matchLength, capture)`, exactly the
`(varStart, varEnd, match[1])` triples of the source.  The first argument is
a loop-iteration budget, for structural recursion; `s.length` iterations
always suffice because every iteration consumes at least one character, so
the budget arm never fires on `robotScanFrom`'s own calls
(`robotScanFromAux_fuel` below makes the budget irrelevance precise). -/
def robotScanFromAux : Nat → Nat → List Char → List (Nat × Nat × List Char)
  | 0, _, _ => []
  | _ + 1, _, [] => []
  | fuel + 1, pos, d :: rest =>
    match robotNameAt (d :: rest) with
    | some nm =>
        (pos, pos + (nm.length + 3), nm) ::
          robotScanFromAux fuel (pos + (nm.length + 3)) ((d :: rest).drop (nm.length + 3))
    | none => robotScanFromAux fuel (pos + 1) rest

def robotScanFrom (pos : Nat) (s : List Char) : List (Nat × Nat × List Char) :=
  robotScanFromAux s.length pos s

/-- All `${NAME}` matches of a line, with their spans. -/
def robotScan (line : List Char) : List (Nat × Nat × List Char) :=
  robotScanFrom 0 line

/-- The reference scan: try the match pattern at every start position of the
line, in order. -/
def specScan (line : List Char) : List (Nat × Nat × List Char) :=
  (List.range line.length).filterMap
    (fun p => (robotNameAt (line.drop p)).map (fun nm => (p, p + (nm.length + 3), nm)))

/-- Intermediate scanner: like `robotScanFrom` but always advancing one
position, whether or not a match was found at the current one. -/
def naiveScanFrom (pos : Nat) (s : List Char) : List (Nat × Nat × List Char) :=
  match s with
  | [] => []
  | d :: rest =>
    match robotNameAt (d :: rest) with
    | some nm => (pos, pos + (nm.length + 3), nm) :: naiveScanFrom (pos + 1) rest
    | none => naiveScanFrom (pos + 1) rest

/-- The cursor-containment loop of the Robot branch of `getVariableAtPosition`
(lines 79–87): return the capture of the first match whose span satisfies
`varStart <= character && character <= varEnd`. -/
def firstSpanAt (ch : Nat) : List (Nat × Nat × List Char) → Option (List Char)
  | [] => none
  | m :: rest => if m.1 ≤ ch ∧ ch ≤ m.2.1 then some m.2.2 else firstSpanAt ch rest

/-- The Robot branch of `getVariableAtPosition` (lines 74–89). -/
def getVariableAtPositionRobot (line : List Char) (ch : Nat) : Option (List Char) :=
  firstSpanAt ch (robotScan line)

/-- Match `([a-zA-Z_$][a-zA-Z0-9_$]*)\s*=` at the head of `s`, returning the
capture and the rest of the input after the whole match.  Greedy
`[a-zA-Z0-9_$]*` and `\s*` need no backtracking because `=` is in neither
class and no whitespace is an identifier character. -/
def jsAssignAt (s : List Char) : Option (List Char × List Char) :=
  match s with
  | [] => none
  | c :: rest =>
    if isIdStart c then
      match (rest.dropWhile isIdChar).dropWhile isWs with
      | d :: r => if d = '=' then some (c :: rest.takeWhile isIdChar, r) else none
      | [] => none
    else none

/-- The `exec` loop over `/([a-zA-Z_$][a-zA-Z0-9_$]*)\s*=/g` in
`buildVariableAssignmentCache` (lines 171–182): the captured identifiers of a
line, in match order.  The first argument is a loop-iteration budget, for
structural recursion; `s.length` iterations always suffice because every
iteration consumes at least one character (`jsAssignAt_length` below), so
the budget arm never fires on `jsScanLine`'s own calls. -/
def jsScanLineAux : Nat → List Char → List (List Char)
  | 0, _ => []
  | _ + 1, [] => []
  | fuel + 1, d :: rest =>
    match jsAssignAt (d :: rest) with
    | some (nm, r) => nm :: jsScanLineAux fuel r
    | none => jsScanLineAux fuel rest

def jsScanLine (s : List Char) : List (List Char) := jsScanLineAux s.length s

/-!
## The Document Assignment Index (`buildVariableAssignmentCache`)

The instance field `variableAssignmentCache` is a plain object (`{}`) used as
a string-keyed map.  Its own properties are modelled as an association list
(`cacheLookup`; insertion appends a fresh key), but a JavaScript property
read `cache[varName]` that misses every own key continues along the
prototype chain: for a plain object it reaches `Object.prototype`, whose own
property names (`constructor`, `toString`, `__proto__`, …) yield truthy
function or object values instead of `undefined`.  `cacheGet` models the
full read: an own string property, a truthy non-string inherited value, or
`undefined`.  The time-stamped early return of
`buildVariableAssignmentCache` (lines 142–146) hands back a previously built
index unchanged, so the index contents are those of the rebuild scan
modelled here (lines 148–190).
-/

/-- The own properties of the Document Assignment Index object. -/
abbrev Cache := List (List Char × List Char)

/-- Own-property lookup on the model map (no prototype chain; see
`cacheGet`). -/
def cacheLookup : Cache → List Char → Option (List Char)
  | [], _ => none
  | p :: rest, k => if p.1 = k then some p.2 else cacheLookup rest k

/-- JavaScript truthiness of a possibly-absent string result
(`undefined`, `null` and `""` are falsy). -/
def otruthy : Option (List Char) → Bool
  | some v => !v.isEmpty
  | none => false

/-- The own property names of `Object.prototype` (ECMA-262 §20.1.3): a
property read on a plain object that misses every own key still finds these
along the prototype chain, and each of their values (a built-in function, or
`Object.prototype` itself for the `__proto__` accessor) is truthy. -/
def objectPrototypeKeys : List (List Char) :=
  [lchars "constructor", lchars "hasOwnProperty", lchars "isPrototypeOf",
   lchars "propertyIsEnumerable", lchars "toLocaleString", lchars "toString",
   lchars "valueOf", lchars "__proto__", lchars "__defineGetter__",
   lchars "__defineSetter__", lchars "__lookupGetter__", lchars "__lookupSetter__"]

/-- Does this key hit `Object.prototype` when no own property shadows it? -/
def isProtoKey (k : List Char) : Bool := objectPrototypeKeys.contains k

/-- A value a property read of the assignment-cache object can produce: an
own (string) property, or the truthy non-string value (function or object)
inherited from `Object.prototype`.  `none` at the `Option` level is
`undefined`. -/
inductive JsValue where
  | str : List Char → JsValue
  | protoRef : JsValue
deriving DecidableEq

/-- The full property read `cache[varName]`: own property first, then the
`Object.prototype` chain. -/
def cacheGet (cache : Cache) (k : List Char) : Option JsValue :=
  match cacheLookup cache k with
  | some v => some (JsValue.str v)
  | none => if isProtoKey k then some JsValue.protoRef else none

/-- JavaScript truthiness of a property-read result: `undefined` and `""`
are falsy; every inherited `Object.prototype` value is truthy. -/
def jsvTruthy : Option JsValue → Bool
  | some (JsValue.str v) => !v.isEmpty
  | some JsValue.protoRef => true
  | none => false

/-- The single-line value extraction used for a scanned name: Robot documents
use `extractRobotVariableValue`, all others `extractVariableValue`
(lines 163 and 177). -/
def extractFor : Bool → List Char → List Char → Option (List Char)
  | true, line, n => extractRobotVariableValue line n
  | false, line, n => extractVariableValue line n

/-- The capture names of the Robot per-line scan, in match order. -/
def robotScanNames (line : List Char) : List (List Char) :=
  (robotScan line).map (fun m => m.2.2)

/-- The per-line global scan of `buildVariableAssignmentCache`: captured
identifier names in match order (lines 157 and 171). -/
def scanNames : Bool → List Char → List (List Char)
  | true, line => robotScanNames line
  | false, line => jsScanLine line

/-- One iteration of the scan loop body (lines 160–167 / 174–181): skip the
name unless `!this.variableAssignmentCache[varName]` — the property read
walks the prototype chain, so a name that is an `Object.prototype` property
is always skipped — otherwise run the single-line extraction and record a
truthy result. -/
def processName (isRobot : Bool) (line : List Char) (cache : Cache) (n : List Char) : Cache :=
  if jsvTruthy (cacheGet cache n) then cache
  else
    match extractFor isRobot line n with
    | some v => if v.isEmpty then cache else cache ++ [(n, v)]
    | none => cache

/-- Process all scanned names of one line, in match order. -/
def processLine (isRobot : Bool) (cache : Cache) (line : List Char) : Cache :=
  (scanNames isRobot line).foldl (processName isRobot line) cache

/-- The rebuild scan of `buildVariableAssignmentCache` (lines 148–190):
scan every line of the document exactly once, in order, starting from the
empty index. -/
def buildVariableAssignmentCache (isRobot : Bool) (lines : List (List Char)) : Cache :=
  lines.foldl (processLine isRobot) []

/-- `findVariableAssignmentEfficient` (lines 194–197):
`cache[variableName] || null` — truthy property-read result (own string, or
value inherited from `Object.prototype`) or `null`. -/
def findVariableAssignmentEfficient (isRobot : Bool) (lines : List (List Char))
    (n : List Char) : Option JsValue :=
  match cacheGet (buildVariableAssignmentCache isRobot lines) n with
  | some (JsValue.str v) => if v.isEmpty then none else some (JsValue.str v)
  | some JsValue.protoRef => some JsValue.protoRef
  | none => none

/-- `findVariableAssignment` (lines 396–410): scan the whole document from the
first line and return the first truthy single-line extraction. -/
def findVariableAssignment (lines : List (List Char)) (n : List Char) : Option (List Char) :=
  match lines with
  | [] => none
  | l :: rest =>
    match extractVariableValue l n with
    | some v => if v.isEmpty then findVariableAssignment rest n else some v
    | none => findVariableAssignment rest n

/-- The document-scan variant of the second hover provider (lines 446–454):
try `extractVariableValue` on the cursor line first, then fall back to
`findVariableAssignment` over the whole document. -/
def lineThenDocumentScan (lines : List (List Char)) (cursorLine : Nat)
    (n : List Char) : Option (List Char) :=
  match extractVariableValue ((lines.get? cursorLine).getD []) n with
  | some v => if v.isEmpty then findVariableAssignment lines n else some v
  | none => findVariableAssignment lines n

/-- Specification-side description of the Document Assignment Index: the value
extracted at the first line (in document order) on which the identifier occurs
among the line's scanned assignment tokens and the single-line extraction
yields a truthy value. -/
def firstScanValueSpec (isRobot : Bool) (n : List Char) :
    List (List Char) → Option (List Char)
  | [] => none
  | l :: rest =>
    if (scanNames isRobot l).contains n && otruthy (extractFor isRobot l n) then
      extractFor isRobot l n
    else firstScanValueSpec isRobot n rest

/-!
## The Resolution Orchestrator (`provideHover`, lines 200–284)

External collaborators (workspace discovery, file existence, the JSON parse
performed by the Metadata Store Accessor, and the editor's word range) are
inputs of the model; the orchestrator's own control flow is modelled exactly.
A thrown exception anywhere inside the handler is caught and turned into
`null` (lines 280–283), which the model renders as `none`.
-/

/-- A selector descriptor from `element_selectors.json`.  Optional JSON fields
that are absent (or JSON `null`) are `none`. -/
structure Descriptor where
  tag : Option (List Char)
  text : Option (List Char)
  xpath : Option (List Char)
  css : Option (List Char)
  photo : List Char
deriving DecidableEq

/-- The metadata table: identifier name to descriptor. -/
abbrev MetadataTable := List (List Char × Descriptor)

/-- Own-property lookup on the metadata table (no prototype chain; see
`tableGet`). -/
def tableLookup : MetadataTable → List Char → Option Descriptor
  | [], _ => none
  | p :: rest, k => if p.1 = k then some p.2 else tableLookup rest k

/-- What the property read `metadata[variableName]` can produce: an own
descriptor, or the truthy function inherited from `Object.prototype` for a
prototype-named identifier (`JSON.parse` returns plain objects, so their
prototype chain is `Object.prototype`). -/
inductive ElementValue where
  | desc : Descriptor → ElementValue
  | protoRef : ElementValue
deriving DecidableEq

/-- The full property read `metadata[variableName]`: own property first, then
the `Object.prototype` chain. -/
def tableGet (t : MetadataTable) (k : List Char) : Option ElementValue :=
  match tableLookup t k with
  | some e => some (ElementValue.desc e)
  | none => if isProtoKey k then some ElementValue.protoRef else none

/-- `element.xpath`: the inherited `Object.prototype` functions have no own
`xpath` property, so the read is `undefined` on them. -/
def elXpath : ElementValue → Option (List Char)
  | ElementValue.desc e => e.xpath
  | ElementValue.protoRef => none

/-- `element.css` (see `elXpath`). -/
def elCss : ElementValue → Option (List Char)
  | ElementValue.desc e => e.css
  | ElementValue.protoRef => none

/-- `field === actualValue` for a string-or-absent descriptor field: strict
equality holds only between a present field and an own string value; it never
holds against the inherited non-string `Object.prototype` value. -/
def strictEqStr (f : Option (List Char)) (actual : JsValue) : Bool :=
  match f, actual with
  | some x, JsValue.str v => decide (x = v)
  | _, _ => false

/-- Lines 242–244: `(element.xpath && element.xpath === actualValue) ||
(element.css && element.css === actualValue)`. -/
def hasMatchingValue (el : ElementValue) (actual : JsValue) : Bool :=
  (otruthy (elXpath el) && strictEqStr (elXpath el) actual) ||
  (otruthy (elCss el) && strictEqStr (elCss el) actual)

/-- The rendered hover payload (lines 256–278): the photo reference and the
fields appended to the markdown — `tag` always, `text`, `xpath` and `css`
only when truthy on the descriptor. -/
structure DisplayPayload where
  photo : List Char
  tag : Option (List Char)
  text : Option (List Char)
  xpath : Option (List Char)
  css : Option (List Char)
deriving DecidableEq

/-- Build the payload shown for a descriptor. -/
def mkPayload (e : Descriptor) : DisplayPayload :=
  { photo := e.photo
  , tag := e.tag
  , text := if otruthy e.text then e.text else none
  , xpath := if otruthy e.xpath then e.xpath else none
  , css := if otruthy e.css then e.css else none }

/-- The environment the orchestrator consults: workspace root, existence of
the metadata file, the result of the Metadata Store Accessor, and existence of
photo files under the metadata directory. -/
structure HoverEnv where
  workspaceRoot : Option (List Char)
  metadataFileExists : Bool
  loadResult : Option MetadataTable
  photoExists : List Char → Bool

/-- A hover request: language family, document lines, cursor position, and the
editor-supplied word range text at the cursor (`getWordRangeAtPosition` +
`getText`, external editor API, used by the non-Robot branch). -/
structure HoverInput where
  isRobot : Bool
  lines : List (List Char)
  cursorLine : Nat
  cursorChar : Nat
  wordAt : Option (List Char)

/-- `getVariableAtPosition` (lines 69–103).  `document.lineAt` throws on an
out-of-range line, which the hover handler's `catch` turns into `null`;
the model returns `none` for that case directly. -/
def getVariableAtPosition (inp : HoverInput) : Option (List Char) :=
  match inp.lines.get? inp.cursorLine with
  | none => none
  | some line =>
    if inp.isRobot then getVariableAtPositionRobot line inp.cursorChar
    else
      match inp.wordAt with
      | none => none
      | some w => if validVariableName w then some w else none

/-- `provideHover` (lines 200–284), the variant using the Document Assignment
Index.  Each `return null` of the source is a `none` here, in the same
order.  In the `ElementValue.protoRef` arm of the final step the source
would compute `path.join(photosDir, element.photo)` with `element.photo`
undefined, which throws and is caught into `null`; that arm is unreachable
anyway because `hasMatchingValue` is false on an element with neither an
`xpath` nor a `css` own property. -/
def provideHover (env : HoverEnv) (inp : HoverInput) : Option DisplayPayload :=
  match getVariableAtPosition inp with
  | none => none
  | some variableName =>
    match env.workspaceRoot with
    | none => none
    | some _ =>
      if !env.metadataFileExists then none
      else
        match env.loadResult with
        | none => none
        | some metadata =>
          match tableGet metadata variableName with
          | none => none
          | some element =>
            match findVariableAssignmentEfficient inp.isRobot inp.lines variableName with
            | none => none
            | some actualValue =>
              if !hasMatchingValue element actualValue then none
              else
                match element with
                | ElementValue.protoRef => none
                | ElementValue.desc e =>
                  if !env.photoExists e.photo then none
                  else some (mkPayload e)

/-!
## The Metadata Store Accessor (`loadMetadata`, lines 37–66)
-/

/-- The accessor's instance state: cached table, its source path, and the
capture timestamp (`Date.now()` milliseconds). -/
structure MetadataCacheState where
  metadataCache : Option MetadataTable
  metadataCachePath : Option (List Char)
  lastCacheTime : Nat
deriving DecidableEq

/-- The on-disk situation at the moment of a call: whether a file exists at
the path, and the JSON parse of its content (`none` when `JSON.parse`
throws). -/
structure MetadataFile where
  fileExistsAt : Bool
  parsed : Option MetadataTable
deriving DecidableEq

/-- `this.cacheTimeout` (line 27): the freshness window in milliseconds. -/
def cacheTimeout : Nat := 5000

/-- The guard of lines 41–43: a truthy cached table, for the same path,
within the freshness window. -/
def freshCacheHit (st : MetadataCacheState) (p : List Char) (now : Nat) : Bool :=
  st.metadataCache.isSome && decide (st.metadataCachePath = some p) &&
  decide (now - st.lastCacheTime < cacheTimeout)

/-- `loadMetadata(metadataFile)` (lines 37–66): result, updated instance
state, and whether `fs.readFileSync` ran.  A `JSON.parse` failure is caught,
logged and returns `null` (lines 62–65). -/
def loadMetadata (st : MetadataCacheState) (p : List Char) (now : Nat)
    (file : MetadataFile) : Option MetadataTable × MetadataCacheState × Bool :=
  if freshCacheHit st p now then (st.metadataCache, st, false)
  else if !file.fileExistsAt then (none, st, false)
  else
    match file.parsed with
    | some tbl =>
        (some tbl,
         { metadataCache := some tbl, metadataCachePath := some p, lastCacheTime := now },
         true)
    | none => (none, st, true)

/-!
## Lemmas: each scan-loop iteration consumes at least one character
-/

lemma length_dropWhile_le' (p : Char → Bool) (l : List Char) :
    (l.dropWhile p).length ≤ l.length := by
  induction l with
  | nil => simp
  | cons a l ih =>
    rw [List.dropWhile_cons]
    split
    · exact Nat.le_trans ih (Nat.le_succ _)
    · simp

lemma jsAssignAt_length {s : List Char} {nm r : List Char}
    (h : jsAssignAt s = some (nm, r)) : r.length < s.length := by
  match s with
  | [] => simp [jsAssignAt] at h
  | c :: rest =>
    simp only [jsAssignAt] at h
    have h1 : ((rest.dropWhile isIdChar).dropWhile isWs).length ≤ rest.length :=
      Nat.le_trans (length_dropWhile_le' _ _) (length_dropWhile_le' _ _)
    split at h
    · split at h
      · split at h
        · cases h
          rename_i hdrop
          rw [hdrop] at h1
          simp only [List.length_cons] at h1 ⊢
          omega
        · exact absurd h (by simp)
      · exact absurd h (by simp)
    · exact absurd h (by simp)

/-!
## Lemmas: the quoted-literal extractor never returns a truthy empty value
-/

lemma capturedOrNone_ne_nil {o : Option (List Char)} {v : List Char}
    (h : capturedOrNone o = some v) : v ≠ [] := by
  match o with
  | none => simp [capturedOrNone] at h
  | some w =>
    simp only [capturedOrNone] at h
    split at h
    · exact absurd h (by simp)
    · cases h
      rename_i hne
      simpa using hne

lemma extractVariableValue_ne_nil {line name v : List Char}
    (h : extractVariableValue line name = some v) : v ≠ [] := by
  unfold extractVariableValue at h
  split at h
  · rename_i heq
    cases h
    exact capturedOrNone_ne_nil heq
  · split at h
    · rename_i heq
      cases h
      exact capturedOrNone_ne_nil heq
    · exact capturedOrNone_ne_nil h

/-!
## Lemmas: characterization of the Document Assignment Index
-/

/-- Every value stored in the index is a non-empty string (the scan loop only
inserts truthy extraction results). -/
def GoodCache (c : Cache) : Prop := ∀ p ∈ c, p.2 ≠ ([] : List Char)

/-- Take the first defined of two optional results. -/
def ofirst : Option (List Char) → Option (List Char) → Option (List Char)
  | some v, _ => some v
  | none, o => o

@[simp] lemma ofirst_some (v : List Char) (o : Option (List Char)) :
    ofirst (some v) o = some v := rfl

@[simp] lemma ofirst_none (o : Option (List Char)) : ofirst none o = o := rfl

lemma cacheLookup_mem {c : Cache} {n v : List Char}
    (h : cacheLookup c n = some v) : (n, v) ∈ c := by
  induction c with
  | nil => simp [cacheLookup] at h
  | cons p rest ih =>
    simp only [cacheLookup] at h
    split at h
    · cases h
      rename_i hp
      have hpe : (n, p.2) = p := by rw [← hp]
      rw [hpe]
      exact List.mem_cons_self _ _
    · exact List.mem_cons_of_mem _ (ih h)

lemma good_lookup {c : Cache} {n v : List Char} (good : GoodCache c)
    (h : cacheLookup c n = some v) : v ≠ [] :=
  good _ (cacheLookup_mem h)

lemma otruthy_lookup {c : Cache} {n : List Char} (good : GoodCache c) :
    otruthy (cacheLookup c n) = (cacheLookup c n).isSome := by
  cases h : cacheLookup c n with
  | none => simp [otruthy]
  | some v =>
    have := good_lookup good h
    simp [otruthy, List.isEmpty_iff, this]

lemma cacheLookup_append_single (c : Cache) (k v n : List Char) :
    cacheLookup (c ++ [(k, v)]) n =
      ofirst (cacheLookup c n) (if k = n then some v else none) := by
  induction c with
  | nil => simp [cacheLookup]
  | cons p rest ih =>
    simp only [List.cons_append, cacheLookup]
    split
    · simp
    · simpa using ih

lemma good_processName {c : Cache} (good : GoodCache c) (ir : Bool)
    (l n' : List Char) : GoodCache (processName ir l c n') := by
  unfold processName
  split
  · exact good
  · split
    · split
      · exact good
      · intro p hp
        rcases List.mem_append.mp hp with hmem | hmem
        · exact good p hmem
        · rename_i hne
          simp only [List.mem_singleton] at hmem
          subst hmem
          simpa [List.isEmpty_iff] using hne
    · exact good

lemma processName_lookup_other {c : Cache} {n n' : List Char} (hne : n' ≠ n)
    (ir : Bool) (l : List Char) :
    cacheLookup (processName ir l c n') n = cacheLookup c n := by
  unfold processName
  split
  · rfl
  · split
    · split
      · rfl
      · rw [cacheLookup_append_single]
        simp [hne]
        cases cacheLookup c n <;> simp
    · rfl

lemma jsvTruthy_cacheGet {c : Cache} {n : List Char} (good : GoodCache c)
    (hn : isProtoKey n = false) :
    jsvTruthy (cacheGet c n) = (cacheLookup c n).isSome := by
  unfold cacheGet
  cases h : cacheLookup c n with
  | none => simp [hn, jsvTruthy]
  | some v =>
    have hv := good_lookup good h
    simp [jsvTruthy, List.isEmpty_iff, hv]

lemma jsvTruthy_cacheGet_proto {c : Cache} {n : List Char} (good : GoodCache c)
    (hn : isProtoKey n = true) : jsvTruthy (cacheGet c n) = true := by
  unfold cacheGet
  cases h : cacheLookup c n with
  | none => simp [hn, jsvTruthy]
  | some v =>
    have hv := good_lookup good h
    simp [jsvTruthy, List.isEmpty_iff, hv]

/-- A name that is an `Object.prototype` property reads as truthy even on an
empty index, so the scan loop never records it. -/
lemma processName_proto {c : Cache} {n' : List Char} (good : GoodCache c)
    (hn : isProtoKey n' = true) (ir : Bool) (l : List Char) :
    processName ir l c n' = c := by
  unfold processName
  rw [jsvTruthy_cacheGet_proto good hn]
  simp

lemma processName_lookup_self {c : Cache} {n : List Char} (good : GoodCache c)
    (hn : isProtoKey n = false) (ir : Bool) (l : List Char) :
    cacheLookup (processName ir l c n) n =
      ofirst (cacheLookup c n)
        (if otruthy (extractFor ir l n) then extractFor ir l n else none) := by
  unfold processName
  rw [jsvTruthy_cacheGet good hn]
  cases h : cacheLookup c n with
  | some w => simp [h]
  | none =>
    simp only [h, Option.isSome_none, Bool.false_eq_true, if_false, ofirst_none]
    cases hx : extractFor ir l n with
    | none => simp [otruthy, h]
    | some v =>
      by_cases hv : v.isEmpty
      · have ho : otruthy (some v) = false := by simp [otruthy, hv]
        simp [hv, ho, h]
      · have ho : otruthy (some v) = true := by simp [otruthy, hv]
        simp only [hv, Bool.false_eq_true, if_false, ho, if_true]
        rw [cacheLookup_append_single, h, ofirst_none, if_pos rfl]

@[simp] lemma ofirst_none_right (o : Option (List Char)) : ofirst o none = o := by
  cases o <;> rfl

lemma ofirst_assoc (a b c : Option (List Char)) :
    ofirst (ofirst a b) c = ofirst a (ofirst b c) := by
  cases a <;> cases b <;> rfl

lemma good_foldl_processName {c : Cache} (good : GoodCache c) (ir : Bool)
    (l : List Char) (names : List (List Char)) :
    GoodCache (names.foldl (processName ir l) c) := by
  induction names generalizing c with
  | nil => exact good
  | cons n' rest ih => exact ih (good_processName good ir l n')

lemma lookup_foldl_processName {n : List Char} (hn : isProtoKey n = false)
    (ir : Bool) (l : List Char) (names : List (List Char)) :
    ∀ (c : Cache), GoodCache c →
    cacheLookup (names.foldl (processName ir l) c) n =
      ofirst (cacheLookup c n)
        (if names.contains n && otruthy (extractFor ir l n) then extractFor ir l n
         else none) := by
  induction names with
  | nil =>
    intro c _
    simp
  | cons n' rest ih =>
    intro c good
    simp only [List.foldl_cons]
    rw [ih _ (good_processName good ir l n')]
    by_cases hnn : n' = n
    · subst hnn
      rw [processName_lookup_self good hn, ofirst_assoc]
      congr 1
      have hc : (n' :: rest).contains n' = true := by simp
      rw [hc, Bool.true_and]
      by_cases ht : otruthy (extractFor ir l n')
      · cases hE : extractFor ir l n' with
        | none => rw [hE] at ht; simp [otruthy] at ht
        | some v =>
          rw [hE] at ht
          simp [ht, hE]
      · simp only [Bool.not_eq_true] at ht
        simp [ht]
    · rw [processName_lookup_other hnn]
      congr 1
      have hc : (n' :: rest).contains n = rest.contains n := by
        have hb : (n == n') = false := by
          simp only [beq_eq_false_iff_ne, ne_eq]
          exact fun h => hnn h.symm
        simp only [List.contains_cons, hb, Bool.false_or]
      rw [hc]

lemma lookup_foldl_processName_proto {n : List Char} (hn : isProtoKey n = true)
    (ir : Bool) (l : List Char) (names : List (List Char)) :
    ∀ (c : Cache), GoodCache c →
    cacheLookup (names.foldl (processName ir l) c) n = cacheLookup c n := by
  induction names with
  | nil =>
    intro c _
    rfl
  | cons n' rest ih =>
    intro c good
    simp only [List.foldl_cons]
    rw [ih _ (good_processName good ir l n')]
    by_cases hnn : n' = n
    · subst hnn
      rw [processName_proto good hn]
    · rw [processName_lookup_other hnn]

lemma good_processLine {c : Cache} (good : GoodCache c) (ir : Bool) (l : List Char) :
    GoodCache (processLine ir c l) :=
  good_foldl_processName good ir l _

lemma lookup_processLine {n : List Char} {c : Cache} (good : GoodCache c)
    (hn : isProtoKey n = false) (ir : Bool) (l : List Char) :
    cacheLookup (processLine ir c l) n =
      ofirst (cacheLookup c n)
        (if (scanNames ir l).contains n && otruthy (extractFor ir l n) then
           extractFor ir l n
         else none) :=
  lookup_foldl_processName hn ir l _ c good

lemma lookup_foldl_processLine {n : List Char} (hn : isProtoKey n = false)
    (ir : Bool) :
    ∀ (lines : List (List Char)) (c : Cache), GoodCache c →
    cacheLookup (lines.foldl (processLine ir) c) n =
      ofirst (cacheLookup c n) (firstScanValueSpec ir n lines) := by
  intro lines
  induction lines with
  | nil =>
    intro c _
    simp [firstScanValueSpec]
  | cons l rest ih =>
    intro c good
    simp only [List.foldl_cons]
    rw [ih _ (good_processLine good ir l), lookup_processLine good hn, ofirst_assoc]
    congr 1
    simp only [firstScanValueSpec]
    by_cases hcond : ((scanNames ir l).contains n && otruthy (extractFor ir l n)) = true
    · simp only [hcond, if_true]
      have ht : otruthy (extractFor ir l n) = true := by
        simp only [Bool.and_eq_true] at hcond
        exact hcond.2
      cases hE : extractFor ir l n with
      | none => rw [hE] at ht; simp [otruthy] at ht
      | some v => rfl
    · simp only [Bool.not_eq_true] at hcond
      simp only [hcond, Bool.false_eq_true, if_false, ofirst_none]

/-- The contents of the Document Assignment Index, for an identifier that is
not an `Object.prototype` property name: the stored value is the truthy
extraction at the first line whose scan mentions the identifier and whose
extraction succeeds. -/
lemma cacheLookup_buildVariableAssignmentCache (ir : Bool)
    (lines : List (List Char)) {n : List Char} (hn : isProtoKey n = false) :
    cacheLookup (buildVariableAssignmentCache ir lines) n =
      firstScanValueSpec ir n lines := by
  unfold buildVariableAssignmentCache
  rw [lookup_foldl_processLine hn ir lines [] (by intro p hp; simp at hp)]
  simp [cacheLookup]

lemma lookup_foldl_processLine_proto {n : List Char} (hn : isProtoKey n = true)
    (ir : Bool) :
    ∀ (lines : List (List Char)) (c : Cache), GoodCache c →
    cacheLookup (lines.foldl (processLine ir) c) n = cacheLookup c n := by
  intro lines
  induction lines with
  | nil =>
    intro c _
    rfl
  | cons l rest ih =>
    intro c good
    simp only [List.foldl_cons]
    rw [ih _ (good_processLine good ir l)]
    exact lookup_foldl_processName_proto hn ir l _ c good

/-- An identifier named after an `Object.prototype` property is never
recorded in the index: the scan's `!cache[varName]` guard is never true for
it. -/
lemma cacheLookup_buildVariableAssignmentCache_proto (ir : Bool)
    (lines : List (List Char)) {n : List Char} (hn : isProtoKey n = true) :
    cacheLookup (buildVariableAssignmentCache ir lines) n = none := by
  unfold buildVariableAssignmentCache
  rw [lookup_foldl_processLine_proto hn ir lines [] (by intro p hp; simp at hp)]
  rfl

lemma firstScanValueSpec_ne_nil {ir : Bool} {n v : List Char}
    {lines : List (List Char)} (h : firstScanValueSpec ir n lines = some v) :
    v ≠ [] := by
  induction lines with
  | nil => simp [firstScanValueSpec] at h
  | cons l rest ih =>
    simp only [firstScanValueSpec] at h
    split at h
    · rename_i hcond
      have ht : otruthy (extractFor ir l n) = true := by
        simp only [Bool.and_eq_true] at hcond
        exact hcond.2
      rw [h] at ht
      simpa [otruthy, List.isEmpty_iff] using ht
    · exact ih h

/-- For an identifier that is not an `Object.prototype` property name, the
index lookup `cache[variableName] || null` returns exactly the
first-scan-value description (as an own string value). -/
lemma findVariableAssignmentEfficient_eq (ir : Bool) (lines : List (List Char))
    {n : List Char} (hn : isProtoKey n = false) :
    findVariableAssignmentEfficient ir lines n =
      (firstScanValueSpec ir n lines).map JsValue.str := by
  unfold findVariableAssignmentEfficient cacheGet
  rw [cacheLookup_buildVariableAssignmentCache ir lines hn]
  cases h : firstScanValueSpec ir n lines with
  | none => simp [hn]
  | some v =>
    have := firstScanValueSpec_ne_nil h
    simp [List.isEmpty_iff, this]

/-- For an identifier named after an `Object.prototype` property, the index
lookup finds the truthy inherited value, not a recorded string. -/
lemma findVariableAssignmentEfficient_proto (ir : Bool) (lines : List (List Char))
    {n : List Char} (hn : isProtoKey n = true) :
    findVariableAssignmentEfficient ir lines n = some JsValue.protoRef := by
  unfold findVariableAssignmentEfficient cacheGet
  rw [cacheLookup_buildVariableAssignmentCache_proto ir lines hn]
  simp [hn]

/-!
## Lemmas: identifiers containing `$` never match a value pattern
-/

lemma matchToks_nil_some {ts : List NameTok} {r : List Char}
    (h : matchToks ts [] = some r) : r = [] := by
  induction ts with
  | nil =>
    simp only [matchToks] at h
    cases h
    rfl
  | cons t ts ih =>
    cases t with
    | lit c => simp [matchToks] at h
    | endAnchor => exact ih h

lemma matchToks_anchor_some {name : List Char} (hdol : '$' ∈ name) :
    ∀ {s r : List Char}, matchToks (nameToks name) s = some r → r = [] := by
  induction name with
  | nil => simp at hdol
  | cons c cs ih =>
    intro s r h
    by_cases hc : c = '$'
    · subst hc
      simp only [nameToks, List.map_cons, if_pos rfl] at h
      cases s with
      | nil => exact matchToks_nil_some h
      | cons d s' => simp [matchToks] at h
    · have hcs : '$' ∈ cs := by
        rcases List.mem_cons.mp hdol with h' | h'
        · exact absurd h'.symm hc
        · exact h'
      simp only [nameToks, List.map_cons, if_neg hc] at h
      cases s with
      | nil => simp [matchToks] at h
      | cons d s' =>
        simp only [matchToks] at h
        split at h
        · exact ih hcs h
        · exact absurd h (by simp)

lemma quotePatternAt_none_of_dollar {name : List Char} (hdol : '$' ∈ name)
    (q : Char) (s : List Char) : quotePatternAt (nameToks name) q s = none := by
  unfold quotePatternAt
  cases h : matchToks (nameToks name) s with
  | none => rfl
  | some r =>
    have hr := matchToks_anchor_some hdol h
    subst hr
    simp [quotedTail]

lemma quotePatternSearch_none_of_dollar {name : List Char} (hdol : '$' ∈ name)
    (q : Char) (s : List Char) : quotePatternSearch (nameToks name) q s = none := by
  induction s with
  | nil =>
    rw [quotePatternSearch, quotePatternAt_none_of_dollar hdol]
  | cons d rest ih =>
    rw [quotePatternSearch, quotePatternAt_none_of_dollar hdol]
    exact ih

lemma extractVariableValue_none_of_dollar {name : List Char} (hdol : '$' ∈ name)
    (line : List Char) : extractVariableValue line name = none := by
  unfold extractVariableValue
  simp [quotePatternSearch_none_of_dollar hdol, capturedOrNone]

/-!
## Lemmas: the global Robot scan finds the matches at all positions
-/

lemma ne_dollar_of_isAlphaUnd {c : Char} (h : isAlphaUnd c = true) : c ≠ '$' := by
  intro he
  subst he
  exact absurd h (by decide)

lemma ne_dollar_of_isAlnumUnd {c : Char} (h : isAlnumUnd c = true) : c ≠ '$' := by
  intro he
  subst he
  exact absurd h (by decide)

lemma robotNameAt_head_ne {d : Char} (h : d ≠ '$') (t : List Char) :
    robotNameAt (d :: t) = none := by
  match t with
  | [] => rfl
  | [x] => rfl
  | x :: y :: r =>
    simp only [robotNameAt]
    rw [if_neg]
    intro hcon
    exact h hcon.1

lemma robotNameAt_inv {s nm : List Char} (h : robotNameAt s = some nm) :
    ∃ c tk tl, s = '$' :: lbrace :: c :: (tk ++ rbrace :: tl) ∧ nm = c :: tk ∧
      isAlphaUnd c = true ∧ ∀ x ∈ tk, isAlnumUnd x = true := by
  match s with
  | [] => simp [robotNameAt] at h
  | [a] => simp [robotNameAt] at h
  | [a, b] => simp [robotNameAt] at h
  | a :: b :: c :: rest =>
    simp only [robotNameAt] at h
    split at h
    · rename_i hcond
      obtain ⟨ha, hb, hc⟩ := hcond
      split at h
      · split at h
        · cases h
          rename_i d dtl hdw hd
          refine ⟨c, rest.takeWhile isAlnumUnd, dtl, ?_, rfl, hc, ?_⟩
          · subst ha hb hd
            have : rest.takeWhile isAlnumUnd ++ rbrace :: dtl = rest := by
              conv_rhs => rw [← List.takeWhile_append_dropWhile isAlnumUnd rest]
              rw [hdw]
            rw [this]
          · intro x hx
            exact List.mem_takeWhile_imp hx
        · exact absurd h (by simp)
      · exact absurd h (by simp)
    · exact absurd h (by simp)

lemma robotNameAt_none_inside {s nm : List Char} (h : robotNameAt s = some nm)
    {i : Nat} (h1 : 1 ≤ i) (h2 : i < nm.length + 3) :
    robotNameAt (s.drop i) = none := by
  obtain ⟨c, tk, tl, hs, hnm, hc, htk⟩ := robotNameAt_inv h
  have hs' : s = '$' :: ((lbrace :: c :: (tk ++ [rbrace])) ++ tl) := by
    simp [hs]
  have hlen : (lbrace :: c :: (tk ++ [rbrace])).length = tk.length + 3 := by simp
  have hix : i - 1 < (lbrace :: c :: (tk ++ [rbrace])).length := by
    rw [hlen]
    have : nm.length = tk.length + 1 := by rw [hnm]; simp
    omega
  have hdrop : s.drop i = (lbrace :: c :: (tk ++ [rbrace])).drop (i - 1) ++ tl := by
    rw [hs']
    have hi : i = (i - 1) + 1 := by omega
    rw [hi]
    rw [List.drop_succ_cons]
    exact List.drop_append_of_le_length (Nat.le_of_lt hix)
  obtain ⟨d, dtl, hd⟩ : ∃ d dtl, (lbrace :: c :: (tk ++ [rbrace])).drop (i - 1) = d :: dtl := by
    cases hew : (lbrace :: c :: (tk ++ [rbrace])).drop (i - 1) with
    | nil =>
      exfalso
      have := List.drop_eq_nil_iff.mp hew
      omega
    | cons d dtl => exact ⟨d, dtl, rfl⟩
  have hdin : d ∈ lbrace :: c :: (tk ++ [rbrace]) := by
    have hmem : d ∈ (lbrace :: c :: (tk ++ [rbrace])).drop (i - 1) := by
      rw [hd]
      exact List.mem_cons_self _ _
    exact List.mem_of_mem_drop hmem
  have hdne : d ≠ '$' := by
    simp only [List.mem_cons, List.mem_append, List.mem_singleton, List.not_mem_nil,
      or_false] at hdin
    rcases hdin with rfl | rfl | hin | rfl
    · decide
    · exact ne_dollar_of_isAlphaUnd hc
    · exact ne_dollar_of_isAlnumUnd (htk _ hin)
    · decide
  rw [hdrop, hd, List.cons_append]
  exact robotNameAt_head_ne hdne _

lemma naiveScanFrom_step {s : List Char} (h : robotNameAt s = none) (pos : Nat) :
    naiveScanFrom pos s = naiveScanFrom (pos + 1) (s.drop 1) := by
  cases s with
  | nil => rfl
  | cons d rest => simp [naiveScanFrom, h]

lemma naiveScanFrom_skip {s : List Char} :
    ∀ k : Nat, 1 ≤ k →
    (∀ i, 1 ≤ i → i < k → robotNameAt (s.drop i) = none) →
    ∀ pos, naiveScanFrom (pos + 1) (s.drop 1) = naiveScanFrom (pos + k) (s.drop k) := by
  intro k
  induction k with
  | zero => omega
  | succ j ih =>
    intro _ hnone pos
    by_cases hj : j = 0
    · subst hj
      rfl
    · have hj1 : 1 ≤ j := Nat.one_le_iff_ne_zero.mpr hj
      have hrec := ih hj1 (fun i hi hik => hnone i hi (Nat.lt_succ_of_lt hik)) pos
      rw [hrec]
      have hstep := naiveScanFrom_step (hnone j hj1 (Nat.lt_succ_self j)) (pos + j)
      rw [hstep, List.drop_drop, Nat.add_assoc]

lemma robotScanFromAux_fuel :
    ∀ (fuel fuel' pos : Nat) (s : List Char), s.length ≤ fuel → s.length ≤ fuel' →
      robotScanFromAux fuel pos s = robotScanFromAux fuel' pos s := by
  intro fuel
  induction fuel with
  | zero =>
    intro fuel' pos s hs _
    have hnil : s = [] := List.eq_nil_of_length_eq_zero (Nat.le_zero.mp hs)
    subst hnil
    cases fuel' <;> rfl
  | succ f ih =>
    intro fuel' pos s hs hs'
    cases s with
    | nil => cases fuel' <;> rfl
    | cons d rest =>
      cases fuel' with
      | zero => simp at hs'
      | succ f' =>
        simp only [robotScanFromAux]
        cases h : robotNameAt (d :: rest) with
        | some nm =>
          exact congrArg (List.cons _)
            (ih f' _ _
              (by simp only [List.length_drop, List.length_cons] at *; omega)
              (by simp only [List.length_drop, List.length_cons] at *; omega))
        | none =>
          exact ih f' _ _
            (by simp only [List.length_cons] at hs; omega)
            (by simp only [List.length_cons] at hs'; omega)

lemma robotScanFrom_nil (pos : Nat) : robotScanFrom pos [] = [] := rfl

lemma robotScanFrom_cons_none {d : Char} {rest : List Char}
    (h : robotNameAt (d :: rest) = none) (pos : Nat) :
    robotScanFrom pos (d :: rest) = robotScanFrom (pos + 1) rest := by
  unfold robotScanFrom
  simp only [List.length_cons, robotScanFromAux, h]

lemma robotScanFrom_cons_some {d : Char} {rest nm : List Char}
    (h : robotNameAt (d :: rest) = some nm) (pos : Nat) :
    robotScanFrom pos (d :: rest) =
      (pos, pos + (nm.length + 3), nm) ::
        robotScanFrom (pos + (nm.length + 3)) ((d :: rest).drop (nm.length + 3)) := by
  unfold robotScanFrom
  simp only [List.length_cons, robotScanFromAux, h]
  congr 1
  apply robotScanFromAux_fuel
  · simp only [List.length_drop, List.length_cons]
    omega
  · exact Nat.le_refl _

lemma robotScanFrom_eq_naive :
    ∀ (N : Nat) (s : List Char), s.length ≤ N → ∀ pos,
      robotScanFrom pos s = naiveScanFrom pos s := by
  intro N
  induction N with
  | zero =>
    intro s hs pos
    have hnil : s = [] := List.eq_nil_of_length_eq_zero (Nat.le_zero.mp hs)
    subst hnil
    rw [robotScanFrom_nil]
    rfl
  | succ N ih =>
    intro s hs pos
    match s with
    | [] =>
      rw [robotScanFrom_nil]
      rfl
    | d :: rest =>
      have hrl : rest.length ≤ N := by
        simp only [List.length_cons] at hs
        omega
      cases h : robotNameAt (d :: rest) with
      | none =>
        rw [robotScanFrom_cons_none h]
        have : naiveScanFrom pos (d :: rest) = naiveScanFrom (pos + 1) rest := by
          simp [naiveScanFrom, h]
        rw [this]
        exact ih rest hrl (pos + 1)
      | some nm =>
        rw [robotScanFrom_cons_some h]
        have hnv : naiveScanFrom pos (d :: rest) =
            (pos, pos + (nm.length + 3), nm) :: naiveScanFrom (pos + 1) rest := by
          simp [naiveScanFrom, h]
        rw [hnv]
        congr 1
        have hskip := naiveScanFrom_skip (s := d :: rest) (nm.length + 3) (by omega)
          (fun i hi hik => robotNameAt_none_inside h hi hik) pos
        have hrest : (d :: rest).drop 1 = rest := rfl
        rw [hrest] at hskip
        rw [hskip]
        apply ih
        simp only [List.length_drop, List.length_cons]
        omega

lemma naiveScanFrom_eq_spec (s : List Char) : ∀ pos,
    naiveScanFrom pos s =
      (List.range s.length).filterMap
        (fun i => (robotNameAt (s.drop i)).map
          (fun nm => (pos + i, pos + i + (nm.length + 3), nm))) := by
  induction s with
  | nil => intro pos; rfl
  | cons d rest ih =>
    intro pos
    rw [List.length_cons, List.range_succ_eq_map, List.filterMap_cons,
      List.filterMap_map]
    have hfun :
        ((fun i => (robotNameAt ((d :: rest).drop i)).map
            (fun nm => (pos + i, pos + i + (nm.length + 3), nm))) ∘ Nat.succ) =
        (fun i => (robotNameAt (rest.drop i)).map
            (fun nm => ((pos + 1) + i, (pos + 1) + i + (nm.length + 3), nm))) := by
      funext i
      simp only [Function.comp_apply, List.drop_succ_cons]
      congr 1
      funext nm
      have : pos + Nat.succ i = (pos + 1) + i := by omega
      rw [this]
    rw [hfun, ← ih (pos + 1)]
    cases h : robotNameAt (d :: rest) with
    | none => simp [naiveScanFrom, h]
    | some nm => simp [naiveScanFrom, h]

/-- The stateful `exec` loop visits exactly the matches found by trying the
pattern at every position of the line: successful matches cannot overlap,
because no character strictly inside a `${name}` span is a `$`. -/
lemma robotScan_eq_specScan (line : List Char) : robotScan line = specScan line := by
  unfold robotScan specScan
  rw [robotScanFrom_eq_naive line.length line (Nat.le_refl _) 0,
    naiveScanFrom_eq_spec]
  simp only [Nat.zero_add]

lemma firstSpanAt_eq_none (ch : Nat) :
    ∀ ms : List (Nat × Nat × List Char),
      firstSpanAt ch ms = none ↔ ∀ m ∈ ms, ¬(m.1 ≤ ch ∧ ch ≤ m.2.1) := by
  intro ms
  induction ms with
  | nil => simp [firstSpanAt]
  | cons m rest ih =>
    simp only [firstSpanAt]
    split
    · rename_i hin
      simp only [List.mem_cons]
      constructor
      · intro hcon
        exact absurd hcon (by simp)
      · intro hall
        exact absurd hin (hall m (Or.inl rfl))
    · rename_i hout
      rw [ih]
      constructor
      · intro hall m' hm'
        rcases List.mem_cons.mp hm' with rfl | hm'
        · exact hout
        · exact hall m' hm'
      · intro hall m' hm'
        exact hall m' (List.mem_cons_of_mem _ hm')

/-!
## Claim theorems
-/

/-- C1, counterexample to the claim as stated: for the identifier
`constructor` — scanned from the line `constructor = "abc"`, with the
extraction succeeding — the index records nothing, because the guard
`!this.variableAssignmentCache[varName]` finds the truthy value inherited
from `Object.prototype`; the index lookup then returns that inherited value,
not the extracted `"abc"`. -/
theorem claim1_counterexample :
    jsScanLine (lchars "constructor = \"abc\"") = [lchars "constructor"] ∧
    extractVariableValue (lchars "constructor = \"abc\"") (lchars "constructor") =
      some (lchars "abc") ∧
    cacheLookup (buildVariableAssignmentCache false [lchars "constructor = \"abc\""])
        (lchars "constructor") = none ∧
    findVariableAssignmentEfficient false [lchars "constructor = \"abc\""]
        (lchars "constructor") = some JsValue.protoRef ∧
    some JsValue.protoRef ≠ some (JsValue.str (lchars "abc")) := by
  refine ⟨rfl, rfl, rfl, rfl, ?_⟩
  decide

/-- C1, amended.  For every document and every identifier that is not an
`Object.prototype` property name, the Document Assignment Index built by the
single in-order scan records the value extracted from the first line where
the identifier occurs among the scanned assignment tokens and extraction
yields a truthy value, and later occurrences are never reconsidered — in
particular a document with two assignments to `x` returns the first value
only.  An identifier that is an `Object.prototype` property name is never
recorded, and the index lookup returns the truthy inherited value instead. -/
theorem claim1_document_index_first_occurrence_wins :
    (∀ (isRobot : Bool) (docLines : List (List Char)) (n : List Char),
        isProtoKey n = false →
        cacheLookup (buildVariableAssignmentCache isRobot docLines) n =
          firstScanValueSpec isRobot n docLines ∧
        findVariableAssignmentEfficient isRobot docLines n =
          (firstScanValueSpec isRobot n docLines).map JsValue.str) ∧
    (∀ (isRobot : Bool) (docLines : List (List Char)) (n : List Char),
        isProtoKey n = true →
        cacheLookup (buildVariableAssignmentCache isRobot docLines) n = none ∧
        findVariableAssignmentEfficient isRobot docLines n = some JsValue.protoRef) ∧
    findVariableAssignmentEfficient false [lchars "x = \"a\"", lchars "x = \"b\""]
        (lchars "x") = some (JsValue.str (lchars "a")) := by
  refine ⟨fun ir docLines n hn =>
    ⟨cacheLookup_buildVariableAssignmentCache ir docLines hn,
     findVariableAssignmentEfficient_eq ir docLines hn⟩,
    fun ir docLines n hn =>
    ⟨cacheLookup_buildVariableAssignmentCache_proto ir docLines hn,
     findVariableAssignmentEfficient_proto ir docLines hn⟩, ?_⟩
  rfl

/-- C1, witness for the amended claim: a non-prototype identifier follows the
first-scan-value description; `constructor` resolves to the inherited value. -/
theorem claim1_document_index_first_occurrence_wins_witness :
    cacheLookup (buildVariableAssignmentCache false [lchars "y = \"q\""])
        (lchars "y") =
      firstScanValueSpec false (lchars "y") [lchars "y = \"q\""] ∧
    findVariableAssignmentEfficient false [lchars "constructor = \"abc\""]
        (lchars "constructor") = some JsValue.protoRef :=
  ⟨(claim1_document_index_first_occurrence_wins.1 false _ _ (by decide)).1,
   (claim1_document_index_first_occurrence_wins.2.1 false _ _ (by decide)).2⟩

/-- C2, counterexample.  The two document-scan variants do not agree: with
the document `x = "a"` / `x = "b"` and the cursor on the second line, the
index variant returns the first-line value while the line-then-document
variant returns the cursor line's value; with the document `max = "v"`, the
line-then-document variant resolves `x` by an unanchored substring match
while the index variant does not resolve `x` at all; and for the identifier
`constructor` the index variant returns the value inherited from
`Object.prototype` while the whole-document scan returns the assigned
string. -/
theorem claim2_counterexample :
    findVariableAssignmentEfficient false [lchars "x = \"a\"", lchars "x = \"b\""]
        (lchars "x") = some (JsValue.str (lchars "a")) ∧
    lineThenDocumentScan [lchars "x = \"a\"", lchars "x = \"b\""] 1 (lchars "x") =
      some (lchars "b") ∧
    lchars "a" ≠ lchars "b" ∧
    findVariableAssignmentEfficient false [lchars "max = \"v\""] (lchars "x") = none ∧
    lineThenDocumentScan [lchars "max = \"v\""] 0 (lchars "x") = some (lchars "v") ∧
    findVariableAssignmentEfficient false [lchars "constructor = \"abc\""]
        (lchars "constructor") = some JsValue.protoRef ∧
    findVariableAssignment [lchars "constructor = \"abc\""] (lchars "constructor") =
      some (lchars "abc") := by
  refine ⟨rfl, rfl, ?_, rfl, rfl, rfl, rfl⟩
  decide

/-- C2, amended.  On any document in which every line where the single-line
extractor succeeds for the identifier also lists that identifier among its
scanned assignment tokens, and for an identifier that is not an
`Object.prototype` property name, the whole-document index variant and the
whole-document scan `findVariableAssignment` return the same value.  (In
general the variants differ: the line-then-document variant prefers the
cursor line and matches the identifier as an unanchored substring, and a
prototype-named identifier resolves to the inherited value in the index
variant only.) -/
theorem claim2_amended_scan_agreement :
    ∀ (docLines : List (List Char)) (n : List Char),
      validVariableName n = true →
      isProtoKey n = false →
      (∀ l ∈ docLines,
        (extractVariableValue l n).isSome = true → (jsScanLine l).contains n = true) →
      findVariableAssignmentEfficient false docLines n =
        (findVariableAssignment docLines n).map JsValue.str := by
  intro docLines n _ hn hcov
  rw [findVariableAssignmentEfficient_eq false docLines hn]
  suffices h : firstScanValueSpec false n docLines = findVariableAssignment docLines n by
    rw [h]
  induction docLines with
  | nil => rfl
  | cons l rest ih =>
    have hcovl := hcov l (List.mem_cons_self _ _)
    have hcovr : ∀ l' ∈ rest,
        (extractVariableValue l' n).isSome = true → (jsScanLine l').contains n = true :=
      fun l' hl' => hcov l' (List.mem_cons_of_mem _ hl')
    simp only [firstScanValueSpec, findVariableAssignment, scanNames, extractFor]
    cases hE : extractVariableValue l n with
    | some v =>
      have hv : v ≠ [] := extractVariableValue_ne_nil hE
      have hcont : (jsScanLine l).contains n = true := hcovl (by rw [hE]; rfl)
      have hot : otruthy (some v) = true := by
        simp [otruthy, List.isEmpty_iff, hv]
      rw [hcont, hot]
      simp [List.isEmpty_iff, hv]
    | none =>
      simp only [otruthy, Bool.and_false, Bool.false_eq_true, if_false]
      exact ih hcovr

/-- C2, witness for the amended claim. -/
theorem claim2_amended_scan_agreement_witness :
    findVariableAssignmentEfficient false [lchars "x = \"a\"", lchars "x = \"b\""]
        (lchars "x") =
      (findVariableAssignment [lchars "x = \"a\"", lchars "x = \"b\""]
        (lchars "x")).map JsValue.str :=
  claim2_amended_scan_agreement _ _ (by decide) (by decide) (by decide)

/-- C3, counterexample to the claim as stated: a line can contain
`x = "abc"` while `valueOf(line, "x")` returns the capture of an earlier
double-quote match instead of `"abc"`. -/
theorem claim3_counterexample :
    List.IsInfix (lchars "x = \"abc\"") (lchars "x = \"z\" x = \"abc\"") ∧
    extractVariableValue (lchars "x = \"z\" x = \"abc\"") (lchars "x") =
      some (lchars "z") ∧
    some (lchars "z") ≠ some (lchars "abc") := by
  refine ⟨⟨lchars "x = \"z\" ", [], by decide⟩, rfl, by decide⟩

/-- C3, amended.  `valueOf` tries the double-, single- and back-quoted
assignment patterns in that fixed priority order, returns the first pattern's
capture when it is non-empty, and returns none exactly when every pattern
fails or captures the empty string; the quote delimiter that opens the
literal governs the capture (`x = 'a"b'` yields `a"b`), and the exact lines
`x = "abc"`, `x = 'abc'` and backquoted `abc` each yield `abc`.  (For a line
merely containing `x = "abc"`, an earlier match in the same line can win,
as `claim3_counterexample` shows.) -/
theorem claim3_valueOf_priority :
    (∀ line n v,
        capturedOrNone (quotePatternSearch (nameToks n) dquote line) = some v →
        extractVariableValue line n = some v) ∧
    (∀ line n v,
        capturedOrNone (quotePatternSearch (nameToks n) dquote line) = none →
        capturedOrNone (quotePatternSearch (nameToks n) squote line) = some v →
        extractVariableValue line n = some v) ∧
    (∀ line n,
        capturedOrNone (quotePatternSearch (nameToks n) dquote line) = none →
        capturedOrNone (quotePatternSearch (nameToks n) squote line) = none →
        extractVariableValue line n =
          capturedOrNone (quotePatternSearch (nameToks n) bquote line)) ∧
    (∀ line n,
        extractVariableValue line n = none ↔
          capturedOrNone (quotePatternSearch (nameToks n) dquote line) = none ∧
          capturedOrNone (quotePatternSearch (nameToks n) squote line) = none ∧
          capturedOrNone (quotePatternSearch (nameToks n) bquote line) = none) ∧
    extractVariableValue (lchars "x = \"abc\"") (lchars "x") = some (lchars "abc") ∧
    extractVariableValue (lchars "x = 'abc'") (lchars "x") = some (lchars "abc") ∧
    extractVariableValue (lchars "x = `abc`") (lchars "x") = some (lchars "abc") ∧
    extractVariableValue (lchars "x = 'a\"b'") (lchars "x") = some (lchars "a\"b") := by
  refine ⟨?_, ?_, ?_, ?_, rfl, rfl, rfl, rfl⟩
  · intro line n v h
    simp [extractVariableValue, h]
  · intro line n v h1 h2
    simp [extractVariableValue, h1, h2]
  · intro line n h1 h2
    simp [extractVariableValue, h1, h2]
  · intro line n
    unfold extractVariableValue
    cases h1 : capturedOrNone (quotePatternSearch (nameToks n) dquote line) with
    | some v => simp [h1]
    | none =>
      cases h2 : capturedOrNone (quotePatternSearch (nameToks n) squote line) with
      | some v => simp [h2]
      | none => simp [h2]

/-- C3, witness: the double-quote pattern wins also when a single-quoted
assignment occurs earlier in the line. -/
theorem claim3_valueOf_priority_witness :
    extractVariableValue (lchars "y = 'q' y = \"p\"") (lchars "y") =
      some (lchars "p") :=
  claim3_valueOf_priority.1 _ _ _ (by decide)

/-- C4.  `resolve` returns none whenever the workspace root is absent, the
metadata file is absent, the identifier is absent from the metadata table,
the actual resolved value equals neither the `xpath` nor the `css` field by
exact string equality, or the referenced photo file is absent. -/
theorem claim4_resolve_none_conditions :
    ∀ (env : HoverEnv) (inp : HoverInput),
      (env.workspaceRoot = none → provideHover env inp = none) ∧
      (env.metadataFileExists = false → provideHover env inp = none) ∧
      (∀ tbl name, env.loadResult = some tbl →
        getVariableAtPosition inp = some name → tableLookup tbl name = none →
        provideHover env inp = none) ∧
      (∀ tbl name e actual, env.loadResult = some tbl →
        getVariableAtPosition inp = some name → tableLookup tbl name = some e →
        findVariableAssignmentEfficient inp.isRobot inp.lines name = some actual →
        strictEqStr e.xpath actual = false → strictEqStr e.css actual = false →
        provideHover env inp = none) ∧
      (∀ tbl name e actual, env.loadResult = some tbl →
        getVariableAtPosition inp = some name → tableLookup tbl name = some e →
        findVariableAssignmentEfficient inp.isRobot inp.lines name = some actual →
        hasMatchingValue (ElementValue.desc e) actual = true →
        env.photoExists e.photo = false →
        provideHover env inp = none) := by
  intro env inp
  refine ⟨?_, ?_, ?_, ?_, ?_⟩
  · intro h
    unfold provideHover
    cases getVariableAtPosition inp <;> simp [h]
  · intro h
    unfold provideHover
    cases getVariableAtPosition inp with
    | none => rfl
    | some name =>
      cases env.workspaceRoot with
      | none => rfl
      | some root => simp [h]
  · intro tbl name hlr hgv htl
    unfold provideHover
    rw [hgv]
    cases env.workspaceRoot with
    | none => rfl
    | some root =>
      cases hmf : env.metadataFileExists with
      | false => simp
      | true =>
        cases hpk : isProtoKey name with
        | false =>
          have htg : tableGet tbl name = none := by
            simp [tableGet, htl, hpk]
          simp [hlr, htg]
        | true =>
          have htg : tableGet tbl name = some ElementValue.protoRef := by
            simp [tableGet, htl, hpk]
          cases hfe : findVariableAssignmentEfficient inp.isRobot inp.lines name with
          | none => simp [hlr, htg, hfe]
          | some actual =>
            have hm : hasMatchingValue ElementValue.protoRef actual = false := by
              simp [hasMatchingValue, elXpath, elCss, otruthy]
            simp [hlr, htg, hfe, hm]
  · intro tbl name e actual hlr hgv htl hfe hx hc
    unfold provideHover
    rw [hgv]
    cases env.workspaceRoot with
    | none => rfl
    | some root =>
      cases hmf : env.metadataFileExists with
      | false => simp
      | true =>
        have htg : tableGet tbl name = some (ElementValue.desc e) := by
          simp [tableGet, htl]
        have hm : hasMatchingValue (ElementValue.desc e) actual = false := by
          simp [hasMatchingValue, elXpath, elCss, hx, hc]
        simp [hlr, htg, hfe, hm]
  · intro tbl name e actual hlr hgv htl hfe hm hp
    unfold provideHover
    rw [hgv]
    cases env.workspaceRoot with
    | none => rfl
    | some root =>
      cases hmf : env.metadataFileExists with
      | false => simp
      | true =>
        have htg : tableGet tbl name = some (ElementValue.desc e) := by
          simp [tableGet, htl]
        simp [hlr, htg, hfe, hm, hp]

/-- C4, witness: with no workspace root the orchestrator yields no result. -/
theorem claim4_resolve_none_conditions_witness :
    provideHover
      { workspaceRoot := none, metadataFileExists := true, loadResult := none,
        photoExists := fun _ => true }
      { isRobot := false, lines := [], cursorLine := 0, cursorChar := 0,
        wordAt := none } = none :=
  (claim4_resolve_none_conditions _ _).1 rfl

/-- C5.  With `BTN ↦ {tag: "button", xpath: "//button[1]", photo: "btn.png"}`
in the metadata, the document line `BTN = "//button[1]"`, and the photo file
present, `resolve` produces a payload that carries the tag and xpath fields
and omits the text and css fields. -/
theorem claim5_resolve_payload_example :
    provideHover
      { workspaceRoot := some (lchars "/workspace")
      , metadataFileExists := true
      , loadResult := some [(lchars "BTN",
          { tag := some (lchars "button"), text := none,
            xpath := some (lchars "//button[1]"), css := none,
            photo := lchars "btn.png" })]
      , photoExists := fun p => decide (p = lchars "btn.png") }
      { isRobot := false
      , lines := [lchars "BTN = \"//button[1]\""]
      , cursorLine := 0
      , cursorChar := 1
      , wordAt := some (lchars "BTN") } =
    some { photo := lchars "btn.png", tag := some (lchars "button"),
           text := none, xpath := some (lchars "//button[1]"), css := none } := by
  rfl

/-- C6.  Once the accessor has cached a table for path `p` at time `t`, a
later call for `p` at `t'` with `t' - t < 5000` returns the cached table with
the state unchanged and without a file read, while a call with
`5000 ≤ t' - t` re-reads the file from disk (when the file exists). -/
theorem claim6_metadata_cache_freshness :
    ∀ (st : MetadataCacheState) (p : List Char) (tbl : MetadataTable)
      (t t' : Nat) (file : MetadataFile),
      st.metadataCache = some tbl → st.metadataCachePath = some p →
      st.lastCacheTime = t →
      (t' - t < cacheTimeout → loadMetadata st p t' file = (some tbl, st, false)) ∧
      (cacheTimeout ≤ t' - t → file.fileExistsAt = true →
        (loadMetadata st p t' file).2.2 = true) := by
  intro st p tbl t t' file hc hp ht
  constructor
  · intro hfresh
    have hhit : freshCacheHit st p t' = true := by
      unfold freshCacheHit
      rw [hc, hp, ht]
      simp [hfresh]
    simp [loadMetadata, hhit, hc]
  · intro hstale hex
    have hhit : freshCacheHit st p t' = false := by
      unfold freshCacheHit
      rw [hc, hp, ht]
      simp only [cacheTimeout] at hstale ⊢
      simp
      omega
    cases hpr : file.parsed <;> simp [loadMetadata, hhit, hex, hpr]

/-- C6, witness: at 4999 ms the cached table is returned without a read; at
5000 ms the file is read again. -/
theorem claim6_metadata_cache_freshness_witness :
    loadMetadata
        { metadataCache := some [], metadataCachePath := some (lchars "/p"),
          lastCacheTime := 1000 } (lchars "/p") 5999
        { fileExistsAt := true, parsed := none } =
      (some [], { metadataCache := some [], metadataCachePath := some (lchars "/p"),
                  lastCacheTime := 1000 }, false) ∧
    (loadMetadata
        { metadataCache := some [], metadataCachePath := some (lchars "/p"),
          lastCacheTime := 1000 } (lchars "/p") 6000
        { fileExistsAt := true, parsed := none }).2.2 = true :=
  ⟨(claim6_metadata_cache_freshness _ _ _ 1000 5999 _ rfl rfl rfl).1 (by decide),
   (claim6_metadata_cache_freshness _ _ _ 1000 6000 _ rfl rfl rfl).2 (by decide) rfl⟩

/-- C7, counterexample to the claim as stated: while a fresh cached table is
held for the path, the accessor returns the cached table even though no file
exists at the path, so "if no file exists at the path it returns none" fails. -/
theorem claim7_counterexample :
    (loadMetadata
        { metadataCache := some ([] : MetadataTable),
          metadataCachePath := some (lchars "/p"), lastCacheTime := 1000 }
        (lchars "/p") 2000 { fileExistsAt := false, parsed := none }).1 =
      some ([] : MetadataTable) ∧
    ({ fileExistsAt := false, parsed := none } : MetadataFile).fileExistsAt = false ∧
    some ([] : MetadataTable) ≠ none := by
  refine ⟨rfl, rfl, by simp⟩

/-- C7, amended.  The accessor never raises; whenever no fresh cached table is
held for the path, a missing file yields none (not an error) and unparseable
content is caught, logged and yields none. -/
theorem claim7_amended_accessor_error_handling :
    ∀ (st : MetadataCacheState) (p : List Char) (now : Nat) (file : MetadataFile),
      freshCacheHit st p now = false →
      (file.fileExistsAt = false → (loadMetadata st p now file).1 = none) ∧
      (file.fileExistsAt = true → file.parsed = none →
        (loadMetadata st p now file).1 = none) := by
  intro st p now file hmiss
  constructor
  · intro hex
    simp [loadMetadata, hmiss, hex]
  · intro hex hpr
    simp [loadMetadata, hmiss, hex, hpr]

/-- C7, witness for the amended claim. -/
theorem claim7_amended_accessor_error_handling_witness :
    (loadMetadata
        { metadataCache := none, metadataCachePath := none, lastCacheTime := 0 }
        (lchars "/p") 0 { fileExistsAt := false, parsed := none }).1 = none ∧
    (loadMetadata
        { metadataCache := none, metadataCachePath := none, lastCacheTime := 0 }
        (lchars "/p") 0 { fileExistsAt := true, parsed := none }).1 = none :=
  ⟨(claim7_amended_accessor_error_handling _ _ _ _ (by decide)).1 rfl,
   (claim7_amended_accessor_error_handling _ _ _ _ (by decide)).2 rfl rfl⟩

/-- C8.  The Robot branch of `identifierAt` scans the line for all matches of
`${name}` with `name` in `[A-Za-z_][A-Za-z0-9_]*` (the stateful `exec` loop
visits exactly the per-position matches), returns the name of the first match
whose span `[varStart, varStart + matchLength]` contains the cursor offset,
and returns none exactly when no match's span contains the offset. -/
theorem claim8_robot_identifier_at_position :
    ∀ (line : List Char) (ch : Nat),
      robotScan line = specScan line ∧
      getVariableAtPositionRobot line ch = firstSpanAt ch (specScan line) ∧
      (getVariableAtPositionRobot line ch = none ↔
        ∀ m ∈ specScan line, ¬(m.1 ≤ ch ∧ ch ≤ m.2.1)) := by
  intro line ch
  refine ⟨robotScan_eq_specScan line, ?_, ?_⟩
  · unfold getVariableAtPositionRobot
    rw [robotScan_eq_specScan]
  · unfold getVariableAtPositionRobot
    rw [robotScan_eq_specScan]
    exact firstSpanAt_eq_none ch _

/-- C9.  The quoted-literal extractor matches the identifier as an unanchored
substring: on the line `max = "v"`, whose only scanned assignment token is
`max`, extraction for the identifier `x` returns `v` rather than none. -/
theorem claim9_substring_match :
    extractVariableValue (lchars "max = \"v\"") (lchars "x") = some (lchars "v") ∧
    jsScanLine (lchars "max = \"v\"") = [lchars "max"] :=
  ⟨rfl, rfl⟩

/-- C10.  Any identifier accepted by the word-boundary validity test that
contains a `$` is interpolated into the value patterns as an end-of-input
anchor followed by further required characters, so `extractVariableValue`
returns none for it on every line. -/
theorem claim10_dollar_identifier_unresolvable :
    ∀ (line n : List Char), validVariableName n = true → '$' ∈ n →
      extractVariableValue line n = none :=
  fun line n _ hd => extractVariableValue_none_of_dollar hd line

/-- C10, witness: `$x` passes the word validity test, yet its own assignment
line yields no value. -/
theorem claim10_dollar_identifier_unresolvable_witness :
    validVariableName (lchars "$x") = true ∧
    extractVariableValue (lchars "$x = \"v\"") (lchars "$x") = none :=
  ⟨by decide, claim10_dollar_identifier_unresolvable _ _ (by decide) (by decide)⟩
